import Mathlib

/- Shallow embedding of aeropy/morphing/camber_2D.py.

The geometric primitives the module imports (the CST surface evaluator,
calculate_c_baseline, calculate_psi_goal, calculate_spar_direction,
calculate_spar_distance, calculate_arc_length) are external collaborators
whose code is not among the sources; each is modelled from its
specification contract and carries a doc comment starting with
"Modelled from the spec:".  Everything else follows the Python source
line by line.  Real numbers stand for Python floats, Option models
exceptions and nontermination (none = the call raises or loops forever),
and psi**0.5 is the real square root. -/

namespace Camber2D

open scoped BigOperators

/-- Bernstein binomial weight, lines 41-43 and 166-168 of the source:
K = n! / (r! * (n-r)!), computed with float division. -/
noncomputable def K (r n : ℕ) : ℝ :=
  (Nat.factorial n : ℝ) / ((Nat.factorial r : ℝ) * (Nat.factorial (n - r) : ℝ))

/-- Modelled from the spec: the Bernstein shape sum of the CST evaluator
(spec section 6 and glossary), sum of A_i * C(n,i) * psi^i * (1-psi)^(n-i)
where n+1 is the length of the coefficient list. -/
noncomputable def cst_shape (A : List ℝ) (ψ : ℝ) : ℝ :=
  ∑ i ∈ Finset.range A.length,
    A.getD i 0 * K i (A.length - 1) * ψ ^ i * (1 - ψ) ^ (A.length - 1 - i)

/-- Modelled from the spec: CST upper surface height at normalized station
psi; class function psi^0.5 * (1-psi) (default exponents 0.5 and 1),
trailing-edge term psi * deltasz, with deltasz the upper half-gap
normalized by chord. -/
noncomputable def cst_upper (Au : List ℝ) (deltasz ψ : ℝ) : ℝ :=
  Real.sqrt ψ * (1 - ψ) * cst_shape Au ψ + ψ * deltasz

/-- Modelled from the spec: CST lower surface height (negated shape sum and
trailing-edge offset -psi * deltasz). -/
noncomputable def cst_lower (Al : List ℝ) (deltasz ψ : ℝ) : ℝ :=
  -(Real.sqrt ψ * (1 - ψ) * cst_shape Al ψ) - ψ * deltasz

/-- Modelled from the spec: baseline_chord returns the chord that keeps the
leading-edge curvature term consistent between parent and child, a
closed-form ratio derived from the leading Bernstein coefficients:
c_C = c_L * (Au_L0 / Au_C0)^2, so that Au_C0^2 * c_C = Au_L0^2 * c_L.
Argument order matches the source call sites:
calculate_c_baseline(c_P, Au_C, Au_P, deltaz). -/
noncomputable def calculate_c_baseline (c_L : ℝ) (Au_C Au_L : List ℝ)
    (deltaz : ℝ) : ℝ :=
  c_L * (Au_L.headD 0 / Au_C.headD 0) ^ 2

/-- Modelled from the spec: psi_goal maps a chordwise station of the source
configuration to the station of the target configuration corresponding to
the same physical point; modelled as preserving the physical (dimensional)
chordwise location: psi * c_baseline / c_goal. -/
noncomputable def calculate_psi_goal (psi_baseline : ℝ)
    (Au_baseline Au_goal : List ℝ) (deltaz c_baseline c_goal : ℝ) : ℝ :=
  psi_baseline * c_baseline / c_goal

/-- Modelled from the spec: spar_direction is the unit 2-vector giving the
orientation a rigid spar (perpendicular to the chord in the baseline
configuration) takes when the surface morphs from the baseline to the goal
configuration: the vertical direction rotated by the change of local upper
surface inclination between the two configurations at the station. -/
noncomputable def calculate_spar_direction (ψ : ℝ)
    (Au_baseline Au_goal : List ℝ) (deltaz c_goal : ℝ) : ℝ × ℝ :=
  let theta := Real.arctan (deriv (cst_upper Au_goal (deltaz / (2 * c_goal))) ψ)
             - Real.arctan (deriv (cst_upper Au_baseline (deltaz / (2 * c_goal))) ψ)
  (Real.sin theta, Real.cos theta)

/-- Modelled from the spec: spar_distance is the physical distance between
the upper and lower surface along the spar_direction vector at the given
station: the vertical gap between the two surfaces there, divided by the
vertical component of the unit spar direction.  Argument order matches the
source call site calculate_spar_distance(psi, Au_C, Au_P, Al_P, deltaz, c_P). -/
noncomputable def calculate_spar_distance (ψ : ℝ)
    (Au_baseline Au_goal Al_goal : List ℝ) (deltaz c_goal : ℝ) : ℝ :=
  c_goal * (cst_upper Au_goal (deltaz / (2 * c_goal)) ψ
      - cst_lower Al_goal (deltaz / (2 * c_goal)) ψ) /
    (calculate_spar_direction ψ Au_baseline Au_goal deltaz c_goal).2

/-- Modelled from the spec: arc_length is the integral arc length of one
(lower) surface between two chordwise bounds, the integral of
sqrt(1 + (dxi/dpsi)^2) scaled by the chord. -/
noncomputable def calculate_arc_length (psi_initial psi_final : ℝ)
    (Al : List ℝ) (deltaz c : ℝ) : ℝ :=
  c * ∫ ψ in psi_initial..psi_final,
        Real.sqrt (1 + (deriv (cst_lower Al (deltaz / (2 * c))) ψ) ^ 2)

/-- Spec section 3, SparResult: thickness measured along a direction
orthogonal to the local parent tangent (not purely vertical); modelled as
the vertical gap between the surfaces projected onto the normal of the
parent upper surface (cosine of the local inclination,
1 / sqrt(1 + slope^2)). -/
noncomputable def orthogonal_spar_distance (Au Al : List ℝ) (deltaz c ψ : ℝ) : ℝ :=
  c * (cst_upper Au (deltaz / (2 * c)) ψ - cst_lower Al (deltaz / (2 * c)) ψ) /
    Real.sqrt (1 + (deriv (cst_upper Au (deltaz / (2 * c))) ψ) ^ 2)

/-- The inner closure of lines 35-38: given a guess for AC_u0, assemble the
full child upper set, compute the child chord through the baseline-chord
relation and return sqrt(c_P/c_C) * Au_P[0]. -/
noncomputable def calculate_AC_u0 (Au_C_1_to_n Au_P : List ℝ)
    (deltaz c_P : ℝ) (AC_u0 : ℝ) : ℝ :=
  let Au_C := AC_u0 :: Au_C_1_to_n
  let c_C := calculate_c_baseline c_P Au_C Au_P deltaz
  Real.sqrt (c_P / c_C) * Au_P.headD 0

open Classical in
/-- Denotation of the uncapped while loop of lines 51-56: starting from x0,
iterate f while successive values differ by more than tol; the result is
the first iterate whose step is at most tol, and none when no such step
exists (the source loop then runs forever). -/
noncomputable def fixed_point_loop (f : ℝ → ℝ) (x0 tol : ℝ) : Option ℝ :=
  if h : ∃ k, |f^[k + 1] x0 - f^[k] x0| ≤ tol then
    some (f^[Nat.find h + 1] x0)
  else none

/-- Morphing direction, restricted to the two strings the source
dispatches on. -/
inductive Morphing
  | backwards
  | forwards

/-- Return value of calculate_dependent_shape_coefficients: the tuple
(Au_C, Al_C, c_C, spar_thicknesses) of line 156. -/
structure MorphResult where
  Au_C : List ℝ
  Al_C : List ℝ
  c_C : ℝ
  spar_thicknesses : List ℝ

/-- The n x n Bernstein system matrix of lines 84-91: row j, column i holds
K(i+1, n) * psi_j^(i+1) * (1-psi_j)^(n-(i+1)). -/
noncomputable def backwards_matrix (psi_spars : List ℝ) (n : ℕ) :
    Matrix (Fin n) (Fin n) ℝ :=
  Matrix.of fun j i =>
    K (i.1 + 1) n * (psi_spars.getD j 0) ^ (i.1 + 1) *
      (1 - psi_spars.getD j 0) ^ (n - (i.1 + 1))

/-- The right-hand side vector of lines 74-82:
b_j = (t_j/c_C - psi_j*deltaz/c_C) / (psi_j^0.5 * (1-psi_j)) - A0*(1-psi_j)^n. -/
noncomputable def backwards_rhs (psi_spars thicknesses : List ℝ)
    (deltaz c_C A0 : ℝ) (n : ℕ) : Fin n → ℝ :=
  fun j =>
    let ψ := psi_spars.getD j 0
    (thicknesses.getD j 0 / c_C - ψ * deltaz / c_C) /
        (Real.sqrt ψ * (1 - ψ)) - A0 * (1 - ψ) ^ n

/-- Backwards branch, lines 73-97: measure each spar in the parent along the
spar direction, assemble the Bernstein system, invert it (none models the
LinAlgError numpy.linalg.inv raises on a singular matrix) and form the
child lower coefficients as solution minus free upper coefficient,
with AC_l0 prepended. -/
noncomputable def backwards_branch (Au_C_1_to_n psi_spars Au_P Al_P : List ℝ)
    (deltaz c_P AC_u0 : ℝ) : Option MorphResult :=
  let n := Au_C_1_to_n.length
  let Au_C := AC_u0 :: Au_C_1_to_n
  let c_C := calculate_c_baseline c_P Au_C Au_P deltaz
  let AC_l0 := Real.sqrt (c_P / c_C) * Al_P.headD 0
  let A0 := AC_u0 + AC_l0
  let spar_thicknesses := psi_spars.map
    (fun ψ => calculate_spar_distance ψ Au_C Au_P Al_P deltaz c_P)
  let B := backwards_matrix psi_spars n
  let b := backwards_rhs psi_spars spar_thicknesses deltaz c_C A0 n
  if B.det = 0 then none
  else
    some ⟨Au_C,
      AC_l0 :: List.ofFn (fun i : Fin n => B⁻¹.mulVec b i - Au_C_1_to_n.getD i 0),
      c_C, spar_thicknesses⟩

/-- Line 133: the lower-surface landing station of spar j in the forwards
branch, psi_l_j = psi_upper_children_j - delta_j_P/c_C * s_j[0]. -/
noncomputable def forwards_psi_lower (psi_spars Au_P Al_P Au_C : List ℝ)
    (deltaz c_P c_C : ℝ) (j : ℕ) : ℝ :=
  let ψ := psi_spars.getD j 0
  let delta := cst_upper Au_P (deltaz / (2 * c_P)) ψ
             - cst_lower Al_P (deltaz / (2 * c_P)) ψ
  let s := calculate_spar_direction ψ Au_P Au_C deltaz c_C
  calculate_psi_goal ψ Au_P Au_C deltaz c_P c_C - delta / c_C * s.1

/-- Line 134: xi_l_j = xi_upper_children_j - delta_j_P/c_C * s_j[1]. -/
noncomputable def forwards_xi_lower (psi_spars Au_P Al_P Au_C : List ℝ)
    (deltaz c_P c_C : ℝ) (j : ℕ) : ℝ :=
  let ψ := psi_spars.getD j 0
  let delta := cst_upper Au_P (deltaz / (2 * c_P)) ψ
             - cst_lower Al_P (deltaz / (2 * c_P)) ψ
  let s := calculate_spar_direction ψ Au_P Au_C deltaz c_C
  cst_upper Au_C (deltaz / (2 * c_C))
      (calculate_psi_goal ψ Au_P Au_C deltaz c_P c_C) - delta / c_C * s.2

/-- Lines 142-150: the forwards system matrix, evaluated at the mapped
child lower stations. -/
noncomputable def forwards_matrix (psi_spars Au_P Al_P Au_C : List ℝ)
    (deltaz c_P c_C : ℝ) (n : ℕ) : Matrix (Fin n) (Fin n) ℝ :=
  Matrix.of fun j i =>
    K (i.1 + 1) n *
      (forwards_psi_lower psi_spars Au_P Al_P Au_C deltaz c_P c_C j) ^ (i.1 + 1) *
      (1 - forwards_psi_lower psi_spars Au_P Al_P Au_C deltaz c_P c_C j) ^ (n - (i.1 + 1))

/-- Line 140: the forwards right-hand side,
f_j = (2*xi_l_j + psi_l_j*deltaz/c_C) / (2*psi_l_j^0.5*(psi_l_j-1)) - AC_l0*(1-psi_l_j)^n. -/
noncomputable def forwards_rhs (psi_spars Au_P Al_P Au_C : List ℝ)
    (deltaz c_P c_C AC_l0 : ℝ) (n : ℕ) : Fin n → ℝ :=
  fun j =>
    let pl := forwards_psi_lower psi_spars Au_P Al_P Au_C deltaz c_P c_C j
    (2 * forwards_xi_lower psi_spars Au_P Al_P Au_C deltaz c_P c_C j
        + pl * deltaz / c_C) / (2 * Real.sqrt pl * (pl - 1))
      - AC_l0 * (1 - pl) ^ n

/-- Forwards branch, lines 99-156: spar thicknesses are the purely vertical
parent-frame gaps t_j = c_P * (xi_u - xi_l)(psi_j) of lines 128-130; the
linear solve at the mapped lower stations directly yields the lower
coefficients.  none models the LinAlgError of the inversion at line 151. -/
noncomputable def forwards_branch (Au_C_1_to_n psi_spars Au_P Al_P : List ℝ)
    (deltaz c_P AC_u0 : ℝ) : Option MorphResult :=
  let n := Au_C_1_to_n.length
  let Au_C := AC_u0 :: Au_C_1_to_n
  let c_C := calculate_c_baseline c_P Au_C Au_P deltaz
  let AC_l0 := Real.sqrt (c_P / c_C) * Al_P.headD 0
  let spar_thicknesses := psi_spars.map
    (fun ψ => c_P * (cst_upper Au_P (deltaz / (2 * c_P)) ψ
        - cst_lower Al_P (deltaz / (2 * c_P)) ψ))
  let F := forwards_matrix psi_spars Au_P Al_P Au_C deltaz c_P c_C n
  let f := forwards_rhs psi_spars Au_P Al_P Au_C deltaz c_P c_C AC_l0 n
  if F.det = 0 then none
  else
    some ⟨Au_C, AC_l0 :: List.ofFn (fun i : Fin n => F⁻¹.mulVec f i),
      c_C, spar_thicknesses⟩

/-- Lines 29-156.  The fixed-point loop for AC_u0 runs first (none = it
never reaches the tolerance and the source loops forever).  A spar-station
count different from the number of free coefficients makes the source die
with an uncaught IndexError while filling b_list (length > n, line 82), B
(length < n, line 91), f (length > n, line 140) or F (length < n,
line 149); the length guard below models that abort.  On a singular system
matrix numpy.linalg.inv raises; both are none here. -/
noncomputable def calculate_dependent_shape_coefficients
    (Au_C_1_to_n psi_spars Au_P Al_P : List ℝ) (deltaz c_P : ℝ)
    (morphing : Morphing) : Option MorphResult :=
  match fixed_point_loop (calculate_AC_u0 Au_C_1_to_n Au_P deltaz c_P)
      (Au_P.headD 0) 1e-9 with
  | none => none
  | some AC_u0 =>
    if psi_spars.length = Au_C_1_to_n.length then
      match morphing with
      | Morphing.backwards =>
          backwards_branch Au_C_1_to_n psi_spars Au_P Al_P deltaz c_P AC_u0
      | Morphing.forwards =>
          forwards_branch Au_C_1_to_n psi_spars Au_P Al_P deltaz c_P AC_u0
    else none

/-- Lines 158-189, calculate_shape_coefficients_tracing system matrix:
T[j][i] = K(i+1, n) * Psi_j^(i+1) * (1-Psi_j)^(n-(i+1)) with Psi = x/chord. -/
noncomputable def tracing_matrix (x : List ℝ) (chord : ℝ) (n : ℕ) :
    Matrix (Fin n) (Fin n) ℝ :=
  Matrix.of fun j i =>
    K (i.1 + 1) n * (x.getD j 0 / chord) ^ (i.1 + 1) *
      (1 - x.getD j 0 / chord) ^ (n - (i.1 + 1))

/-- Line 185: t_j = (Xi_j - Psi_j*EndThickness/chord) / (Psi_j^N1*(1-Psi_j)^N2)
- A0*(1-Psi_j)^n, all stations normalized by chord.  N1 and N2 are real
exponents in the source, hence real powers here. -/
noncomputable def tracing_rhs (x y : List ℝ) (N1 N2 chord EndThickness A0 : ℝ)
    (n : ℕ) : Fin n → ℝ :=
  fun j =>
    let Psi := x.getD j 0 / chord
    let Xi := y.getD j 0 / chord
    (Xi - Psi * (EndThickness / chord)) / (Psi ^ N1 * (1 - Psi) ^ N2)
      - A0 * (1 - Psi) ^ n

/-- Lines 158-189: fit the remaining Bernstein coefficients through the
target points with the leading coefficient fixed; A0 is prepended to the
solution of the square system.  A y list shorter than x makes the source
die with an IndexError at line 185, and a singular T raises at line 187;
both are none here. -/
noncomputable def calculate_shape_coefficients_tracing (A0 : ℝ) (x y : List ℝ)
    (N1 N2 chord EndThickness : ℝ) : Option (List ℝ) :=
  if y.length < x.length then none
  else if (tracing_matrix x chord x.length).det = 0 then none
  else some (A0 :: List.ofFn (fun i : Fin x.length =>
    (tracing_matrix x chord x.length)⁻¹.mulVec
      (tracing_rhs x y N1 N2 chord EndThickness A0 x.length) i))

/-- Lines 191-225: per-segment and average arc-length strain between the
parent and child configurations.  Initial segment bounds are
[0] + psi_spars + [c_P] (line 206); final bounds come from the dimensional
spar landing points psi_flats and c_C, rescaled by c_P/c_C (lines 212-214). -/
noncomputable def calculate_strains (Au_P Al_P : List ℝ) (c_P : ℝ)
    (Au_C Al_C : List ℝ) (c_C deltaz : ℝ)
    (psi_spars spar_thicknesses : List ℝ) : List ℝ × ℝ :=
  let psi_flats := (List.range psi_spars.length).map (fun j =>
    let ψ := psi_spars.getD j 0
    let psi_children := calculate_psi_goal ψ Au_P Au_C deltaz c_P c_C
    let s := calculate_spar_direction ψ Au_P Au_C deltaz c_C
    psi_children * c_C - spar_thicknesses.getD j 0 * s.1)
  let psi_list_initial := 0 :: psi_spars ++ [c_P]
  let initial_lengths := (List.range (psi_list_initial.length - 1)).map (fun i =>
    calculate_arc_length (psi_list_initial.getD i 0)
      (psi_list_initial.getD (i + 1) 0) Al_P deltaz c_P)
  let psi_list_final := 0 :: psi_flats ++ [c_C]
  let final_lengths := (List.range (psi_list_final.length - 1)).map (fun i =>
    calculate_arc_length (psi_list_final.getD i 0 * c_P / c_C)
      (psi_list_final.getD (i + 1) 0 * c_P / c_C) Al_C deltaz c_C)
  let strains := (List.range final_lengths.length).map (fun i =>
    (final_lengths.getD i 0 - initial_lengths.getD i 0) /
      initial_lengths.getD i 0)
  (strains, (final_lengths.sum - initial_lengths.sum) / initial_lengths.sum)

/-- The float quotient K agrees with the binomial coefficient. -/
lemma K_eq_choose {r n : ℕ} (h : r ≤ n) : K r n = (n.choose r : ℝ) := by
  have hr : (0 : ℝ) < (Nat.factorial r : ℝ) :=
    Nat.cast_pos.mpr (Nat.factorial_pos r)
  have hnr : (0 : ℝ) < (Nat.factorial (n - r) : ℝ) :=
    Nat.cast_pos.mpr (Nat.factorial_pos (n - r))
  have hfac : (Nat.factorial r : ℝ) * (Nat.factorial (n - r) : ℝ) ≠ 0 :=
    ne_of_gt (mul_pos hr hnr)
  rw [K, div_eq_iff hfac]
  calc (Nat.factorial n : ℝ)
      = ((n.choose r * Nat.factorial r * Nat.factorial (n - r) : ℕ) : ℝ) := by
        rw [Nat.choose_mul_factorial_mul_factorial h]
    _ = (n.choose r : ℝ) * ((Nat.factorial r : ℝ) * (Nat.factorial (n - r) : ℝ)) := by
        push_cast
        ring

lemma K_zero (n : ℕ) : K 0 n = 1 := by
  have h : (Nat.factorial n : ℝ) ≠ 0 :=
    ne_of_gt (Nat.cast_pos.mpr (Nat.factorial_pos n))
  simp [K, Nat.factorial, div_self h]

lemma getD_tail (l : List ℝ) (i : ℕ) (d : ℝ) :
    l.tail.getD i d = l.getD (i + 1) d := by
  cases l <;> simp [List.getD]

lemma headD_eq_getD (l : List ℝ) (d : ℝ) : l.headD d = l.getD 0 d := by
  cases l <;> simp

lemma cons_headD_tail {l : List ℝ} (h : l ≠ []) (d : ℝ) :
    l.headD d :: l.tail = l := by
  cases l with
  | nil => exact absurd rfl h
  | cons a as => simp

/-- When the two configurations coincide the spar keeps its vertical
orientation. -/
lemma spar_direction_self (ψ : ℝ) (A : List ℝ) (dz c : ℝ) :
    calculate_spar_direction ψ A A dz c = (0, 1) := by
  simp [calculate_spar_direction]

/-- When the two configurations coincide the spar distance is the vertical
gap between the surfaces. -/
lemma spar_distance_self (ψ : ℝ) (A Al : List ℝ) (dz c : ℝ) :
    calculate_spar_distance ψ A A Al dz c =
      c * (cst_upper A (dz / (2 * c)) ψ - cst_lower Al (dz / (2 * c)) ψ) := by
  simp [calculate_spar_distance, spar_direction_self]

/-- Under the modelled baseline-chord relation, the parent leading
coefficient is a fixed point of the AC_u0 map. -/
lemma AC_u0_fixed (tail : List ℝ) {Au_P : List ℝ} (deltaz : ℝ) {c_P : ℝ}
    (ha : Au_P.headD 0 ≠ 0) (hc : c_P ≠ 0) :
    calculate_AC_u0 tail Au_P deltaz c_P (Au_P.headD 0) = Au_P.headD 0 := by
  have h1 : (Au_P.headD 0 :: tail).headD 0 = Au_P.headD 0 := rfl
  simp only [calculate_AC_u0, calculate_c_baseline, h1]
  rw [div_self ha, one_pow, mul_one, div_self hc, Real.sqrt_one, one_mul]

/-- The loop returns its starting point as soon as it is a fixed point. -/
lemma fixed_point_loop_fixed {f : ℝ → ℝ} {x0 tol : ℝ} (hf : f x0 = x0)
    (ht : 0 ≤ tol) : fixed_point_loop f x0 tol = some x0 := by
  have hiter : ∀ k, f^[k] x0 = x0 := fun k => Function.iterate_fixed hf k
  have h : ∃ k, |f^[k + 1] x0 - f^[k] x0| ≤ tol := ⟨0, by simp [hf, ht]⟩
  rw [fixed_point_loop, dif_pos h, hiter]

/-- Solving by explicit inversion recovers any solution of the system when
the matrix is nonsingular. -/
lemma inv_mulVec_eq {n : ℕ} (B : Matrix (Fin n) (Fin n) ℝ) (x b : Fin n → ℝ)
    (hdet : B.det ≠ 0) (h : B.mulVec x = b) : B⁻¹.mulVec b = x := by
  subst h
  rw [Matrix.mulVec_mulVec, Matrix.nonsing_inv_mul B (isUnit_iff_ne_zero.mpr hdet),
    Matrix.one_mulVec]

/-- With a nonzero parent leading coefficient the fixed-point loop settles
immediately on Au_P[0] and the solver reduces to the backwards branch. -/
lemma dependent_eq_backwards {free psi_spars Au_P Al_P : List ℝ}
    {deltaz c_P : ℝ} (ha : Au_P.headD 0 ≠ 0) (hc : c_P ≠ 0)
    (hlen : psi_spars.length = free.length) :
    calculate_dependent_shape_coefficients free psi_spars Au_P Al_P deltaz c_P
        Morphing.backwards =
      backwards_branch free psi_spars Au_P Al_P deltaz c_P (Au_P.headD 0) := by
  rw [calculate_dependent_shape_coefficients,
    fixed_point_loop_fixed (AC_u0_fixed free deltaz ha hc) (by norm_num)]
  simp [hlen]

/-- Forwards analogue of dependent_eq_backwards. -/
lemma dependent_eq_forwards {free psi_spars Au_P Al_P : List ℝ}
    {deltaz c_P : ℝ} (ha : Au_P.headD 0 ≠ 0) (hc : c_P ≠ 0)
    (hlen : psi_spars.length = free.length) :
    calculate_dependent_shape_coefficients free psi_spars Au_P Al_P deltaz c_P
        Morphing.forwards =
      forwards_branch free psi_spars Au_P Al_P deltaz c_P (Au_P.headD 0) := by
  rw [calculate_dependent_shape_coefficients,
    fixed_point_loop_fixed (AC_u0_fixed free deltaz ha hc) (by norm_num)]
  simp [hlen]

lemma cst_shape_one_one (ψ : ℝ) : cst_shape [1, 1] ψ = 1 := by
  norm_num [cst_shape, Finset.sum_range_succ, K, Nat.factorial]

lemma cst_upper_one_one : cst_upper [1, 1] 0 = fun ψ => Real.sqrt ψ * (1 - ψ) := by
  funext ψ
  simp [cst_upper, cst_shape_one_one]

lemma cst_lower_one_one : cst_lower [1, 1] 0 = fun ψ => -(Real.sqrt ψ * (1 - ψ)) := by
  funext ψ
  simp [cst_lower, cst_shape_one_one]

lemma cst_shape_zero_zero (ψ : ℝ) : cst_shape [0, 0] ψ = 0 := by
  norm_num [cst_shape, Finset.sum_range_succ]

lemma cst_lower_zero_zero : cst_lower [0, 0] 0 = fun _ => (0 : ℝ) := by
  funext ψ
  simp [cst_lower, cst_shape_zero_zero]

lemma sqrt_half_ne_zero : Real.sqrt (1 / 2) ≠ 0 :=
  ne_of_gt (Real.sqrt_pos.mpr (by norm_num))

lemma sqrt_quarter : Real.sqrt (1 / 4) = 1 / 2 := by
  rw [show (1 / 4 : ℝ) = (1 / 2) ^ 2 by norm_num, Real.sqrt_sq (by norm_num)]

lemma sqrt_four : Real.sqrt 4 = 2 := by
  rw [show (4 : ℝ) = 2 ^ 2 by norm_num, Real.sqrt_sq (by norm_num)]

/-- Concrete backwards run: parent [1,1]/[1,1], chord 1, no gap, one spar at
1/2 and the child free coefficient equal to the parent's, reproducing the
parent exactly. -/
lemma backwards_eval_demo :
    calculate_dependent_shape_coefficients [1] [1 / 2] [1, 1] [1, 1] 0 1
        Morphing.backwards =
      some ⟨[1, 1], [1, 1], 1, [Real.sqrt (1 / 2)]⟩ := by
  have ha : ([1, 1] : List ℝ).headD 0 ≠ 0 := by norm_num
  rw [dependent_eq_backwards ha (by norm_num) (by simp), backwards_branch]
  have hhd : (([1, 1] : List ℝ).headD 0 :: [1]) = ([1, 1] : List ℝ) := by norm_num
  rw [hhd]
  have hcb : calculate_c_baseline 1 [1, 1] [1, 1] 0 = 1 := by
    norm_num [calculate_c_baseline]
  rw [hcb]
  have hl0 : Real.sqrt (1 / 1) * ([1, 1] : List ℝ).headD 0 = 1 := by
    norm_num [Real.sqrt_one]
  rw [hl0]
  have hthick : ([1 / 2] : List ℝ).map
      (fun ψ => calculate_spar_distance ψ [1, 1] [1, 1] [1, 1] 0 1) =
      [Real.sqrt (1 / 2)] := by
    simp only [List.map_cons, List.map_nil, spar_distance_self]
    norm_num [cst_upper_one_one, cst_lower_one_one]
    ring
  rw [hthick]
  have hdet : (backwards_matrix [1 / 2] ([1] : List ℝ).length).det = 1 / 2 := by
    rw [show ([1] : List ℝ).length = 1 from rfl, Matrix.det_fin_one]
    norm_num [backwards_matrix, K, Nat.factorial]
  have hb : backwards_rhs [1 / 2] [Real.sqrt (1 / 2)] 0 1
      (([1, 1] : List ℝ).headD 0 + 1) ([1] : List ℝ).length = fun _ => (1 : ℝ) := by
    funext j
    have h2 : Real.sqrt (1 / 2) * (1 / 2) ≠ 0 := by
      exact mul_ne_zero sqrt_half_ne_zero (by norm_num)
    simp only [backwards_rhs]
    norm_num
    field_simp
    norm_num
  have hsolve : (backwards_matrix [1 / 2] ([1] : List ℝ).length)⁻¹.mulVec
      (fun _ => (1 : ℝ)) = fun _ => (2 : ℝ) := by
    apply inv_mulVec_eq _ _ _ (by rw [hdet]; norm_num)
    funext j
    rw [show ([1] : List ℝ).length = 1 from rfl] at *
    simp [Matrix.mulVec, Matrix.dotProduct, backwards_matrix, Fin.sum_univ_one]
    norm_num [K, Nat.factorial]
  rw [hb, if_neg (by rw [hdet]; norm_num), hsolve]
  norm_num [List.ofFn_succ, List.ofFn_zero]

/-- Concrete forwards run: parent [1,1]/[1,1], chord 1, no gap, one spar at
1/4 and the child free coefficient equal to the parent's. -/
lemma forwards_eval_demo :
    calculate_dependent_shape_coefficients [1] [1 / 4] [1, 1] [1, 1] 0 1
        Morphing.forwards =
      some ⟨[1, 1], [1, 1], 1, [3 / 4]⟩ := by
  have ha : ([1, 1] : List ℝ).headD 0 ≠ 0 := by norm_num
  rw [dependent_eq_forwards ha (by norm_num) (by simp), forwards_branch]
  have hhd : (([1, 1] : List ℝ).headD 0 :: [1]) = ([1, 1] : List ℝ) := by norm_num
  rw [hhd]
  have hcb : calculate_c_baseline 1 [1, 1] [1, 1] 0 = 1 := by
    norm_num [calculate_c_baseline]
  rw [hcb]
  have hl0 : Real.sqrt (1 / 1) * ([1, 1] : List ℝ).headD 0 = 1 := by
    norm_num [Real.sqrt_one]
  rw [hl0]
  have hpl : forwards_psi_lower [1 / 4] [1, 1] [1, 1] [1, 1] 0 1 1 0 = 1 / 4 := by
    simp only [forwards_psi_lower, spar_direction_self, calculate_psi_goal]
    norm_num
  have hxl : forwards_xi_lower [1 / 4] [1, 1] [1, 1] [1, 1] 0 1 1 0 = -(3 / 8) := by
    simp only [forwards_xi_lower, spar_direction_self, calculate_psi_goal]
    norm_num [cst_upper_one_one, cst_lower_one_one, sqrt_quarter, sqrt_four]
  have hthick : ([1 / 4] : List ℝ).map
      (fun ψ => 1 * (cst_upper [1, 1] (0 / (2 * 1)) ψ
        - cst_lower [1, 1] (0 / (2 * 1)) ψ)) = [3 / 4] := by
    simp only [List.map_cons, List.map_nil]
    norm_num [cst_upper_one_one, cst_lower_one_one, sqrt_quarter, sqrt_four]
  rw [hthick]
  have hdet : (forwards_matrix [1 / 4] [1, 1] [1, 1] [1, 1] 0 1 1
      ([1] : List ℝ).length).det = 1 / 4 := by
    rw [show ([1] : List ℝ).length = 1 from rfl, Matrix.det_fin_one]
    simp only [forwards_matrix, Matrix.of_apply, Fin.val_zero]
    rw [hpl]
    norm_num [K, Nat.factorial]
  have hfv : forwards_rhs [1 / 4] [1, 1] [1, 1] [1, 1] 0 1 1 1
      ([1] : List ℝ).length = fun _ => (1 / 4 : ℝ) := by
    funext j
    have hlt : ((j : ℕ)) < 1 := by simpa using j.isLt
    have hj : ((j : ℕ)) = 0 := Nat.lt_one_iff.mp hlt
    simp only [forwards_rhs, hj]
    rw [hpl, hxl]
    norm_num [sqrt_quarter, sqrt_four]
  have hsolve : (forwards_matrix [1 / 4] [1, 1] [1, 1] [1, 1] 0 1 1
      ([1] : List ℝ).length)⁻¹.mulVec (fun _ => (1 / 4 : ℝ)) = fun _ => (1 : ℝ) := by
    apply inv_mulVec_eq _ _ _ (by rw [hdet]; norm_num)
    funext j
    simp [Matrix.mulVec, Matrix.dotProduct, forwards_matrix, Fin.sum_univ_one]
    rw [show (4⁻¹ : ℝ) = 1 / 4 by norm_num, hpl]
    norm_num [K, Nat.factorial]
  rw [hfv, if_neg (by rw [hdet]; norm_num), hsolve]
  norm_num [List.ofFn_succ, List.ofFn_zero]

/-- Slope of the parent upper surface [1,1] at station 1/4. -/
lemma deriv_cst_upper_one_one_quarter :
    deriv (cst_upper [1, 1] 0) (1 / 4) = 1 / 4 := by
  rw [cst_upper_one_one]
  have h1 : HasDerivAt Real.sqrt (1 / (2 * Real.sqrt (1 / 4))) (1 / 4) :=
    Real.hasDerivAt_sqrt (by norm_num)
  have h2 : HasDerivAt (fun ψ : ℝ => 1 - ψ) (-1) (1 / 4) := by
    simpa using (hasDerivAt_id (1 / 4 : ℝ)).const_sub 1
  have h := h1.mul h2
  rw [h.deriv, sqrt_quarter]
  norm_num

lemma sqrt_seventeen_sixteenths_ne_one : Real.sqrt (17 / 16) ≠ 1 := by
  intro h
  have h2 := Real.sq_sqrt (by norm_num : (0 : ℝ) ≤ 17 / 16)
  rw [h] at h2
  norm_num at h2

/-- Vertical gap between the two CST surfaces: class term times the sum of
the shape sums plus the full trailing-edge gap contribution. -/
lemma cst_gap (Au Al : List ℝ) {c : ℝ} (hc : c ≠ 0) (dz ψ : ℝ) :
    cst_upper Au (dz / (2 * c)) ψ - cst_lower Al (dz / (2 * c)) ψ =
      Real.sqrt ψ * (1 - ψ) * (cst_shape Au ψ + cst_shape Al ψ) + ψ * dz / c := by
  simp only [cst_upper, cst_lower]
  field_simp
  ring

/-- Splitting the combined Bernstein sum of two order-n coefficient lists
into the leading term and the index-1..n part. -/
lemma shape_sum_split (Au Al : List ℝ) (n : ℕ) (hAu : Au.length = n + 1)
    (hAl : Al.length = n + 1) (ψ : ℝ) :
    cst_shape Au ψ + cst_shape Al ψ =
      (Au.getD 0 0 + Al.getD 0 0) * (1 - ψ) ^ n +
        ∑ i ∈ Finset.range n, (Au.getD (i + 1) 0 + Al.getD (i + 1) 0) *
          K (i + 1) n * ψ ^ (i + 1) * (1 - ψ) ^ (n - (i + 1)) := by
  simp only [cst_shape, hAu, hAl, Nat.add_sub_cancel]
  rw [← Finset.sum_add_distrib, Finset.sum_range_succ']
  rw [K_zero]
  simp only [pow_zero, Nat.sub_zero, mul_one, one_mul]
  rw [add_comm]
  congr 1
  · ring
  · apply Finset.sum_congr rfl
    intro i _
    ring

/-- On the identity morph the backwards right-hand side is exactly the
Bernstein matrix applied to the vector of parent coefficient sums
Au_P[i+1] + Al_P[i+1]. -/
lemma backwards_rhs_identity (psi_spars Au_P Al_P : List ℝ) {c_P : ℝ}
    (hc : c_P ≠ 0) (deltaz : ℝ) {n : ℕ} (hn : psi_spars.length = n)
    (hAu : Au_P.length = n + 1) (hAl : Al_P.length = n + 1)
    (hint : ∀ ψ ∈ psi_spars, 0 < ψ ∧ ψ < 1) :
    backwards_rhs psi_spars
        (psi_spars.map (fun ψ => c_P * (cst_upper Au_P (deltaz / (2 * c_P)) ψ
          - cst_lower Al_P (deltaz / (2 * c_P)) ψ)))
        deltaz c_P (Au_P.headD 0 + Al_P.headD 0) n =
      (backwards_matrix psi_spars n).mulVec
        (fun i : Fin n => Au_P.getD (i.1 + 1) 0 + Al_P.getD (i.1 + 1) 0) := by
  funext j
  have hj : (j : ℕ) < psi_spars.length := by rw [hn]; exact j.isLt
  have hmem : psi_spars.getD j 0 ∈ psi_spars := by
    rw [List.getD_eq_getElem _ _ hj]
    exact List.getElem_mem _
  obtain ⟨hψ0, hψ1⟩ := hint _ hmem
  have hsqrt : Real.sqrt (psi_spars.getD j 0) ≠ 0 :=
    ne_of_gt (Real.sqrt_pos.mpr hψ0)
  have h1ψ : (1 : ℝ) - psi_spars.getD j 0 ≠ 0 := by linarith
  have ht : (psi_spars.map (fun ψ => c_P * (cst_upper Au_P (deltaz / (2 * c_P)) ψ
      - cst_lower Al_P (deltaz / (2 * c_P)) ψ))).getD j 0 =
      c_P * (cst_upper Au_P (deltaz / (2 * c_P)) (psi_spars.getD j 0)
        - cst_lower Al_P (deltaz / (2 * c_P)) (psi_spars.getD j 0)) := by
    rw [List.getD_eq_getElem _ _ (by simpa using hj), List.getElem_map,
      List.getD_eq_getElem _ _ hj]
  simp only [backwards_rhs]
  rw [ht, cst_gap Au_P Al_P hc deltaz, shape_sum_split Au_P Al_P n hAu hAl]
  set ψ := psi_spars.getD j 0 with hψdef
  have hmv : (backwards_matrix psi_spars n).mulVec
      (fun i : Fin n => Au_P.getD (i.1 + 1) 0 + Al_P.getD (i.1 + 1) 0) j =
      ∑ i ∈ Finset.range n, (Au_P.getD (i + 1) 0 + Al_P.getD (i + 1) 0) *
        K (i + 1) n * ψ ^ (i + 1) * (1 - ψ) ^ (n - (i + 1)) := by
    simp only [Matrix.mulVec, Matrix.dotProduct, backwards_matrix, Matrix.of_apply]
    rw [Fin.sum_univ_eq_sum_range (fun i => K (i + 1) n * ψ ^ (i + 1) *
      (1 - ψ) ^ (n - (i + 1)) * (Au_P.getD (i + 1) 0 + Al_P.getD (i + 1) 0)) n]
    apply Finset.sum_congr rfl
    intro i _
    ring
  rw [hmv, headD_eq_getD Au_P, headD_eq_getD Al_P]
  field_simp

lemma mulVec_inv_mulVec {n : ℕ} (B : Matrix (Fin n) (Fin n) ℝ) (b : Fin n → ℝ)
    (hdet : B.det ≠ 0) : B.mulVec (B⁻¹.mulVec b) = b := by
  rw [Matrix.mulVec_mulVec, Matrix.mul_nonsing_inv B (isUnit_iff_ne_zero.mpr hdet),
    Matrix.one_mulVec]

/-- Inversion of a successful backwards solve: the loop converged, the
lengths agree, the system was nonsingular, and the result is the assembled
tuple of lines 59-97. -/
lemma dependent_backwards_inv {free psi_spars Au_P Al_P : List ℝ}
    {deltaz c_P : ℝ} {r : MorphResult}
    (h : calculate_dependent_shape_coefficients free psi_spars Au_P Al_P
        deltaz c_P Morphing.backwards = some r) :
    ∃ AC_u0,
      fixed_point_loop (calculate_AC_u0 free Au_P deltaz c_P) (Au_P.headD 0)
          1e-9 = some AC_u0 ∧
      psi_spars.length = free.length ∧
      (backwards_matrix psi_spars free.length).det ≠ 0 ∧
      r = ⟨AC_u0 :: free,
        (Real.sqrt (c_P / calculate_c_baseline c_P (AC_u0 :: free) Au_P deltaz) *
            Al_P.headD 0) ::
          List.ofFn (fun i : Fin free.length =>
            (backwards_matrix psi_spars free.length)⁻¹.mulVec
              (backwards_rhs psi_spars
                (psi_spars.map (fun ψ =>
                  calculate_spar_distance ψ (AC_u0 :: free) Au_P Al_P deltaz c_P))
                deltaz (calculate_c_baseline c_P (AC_u0 :: free) Au_P deltaz)
                (AC_u0 + Real.sqrt (c_P /
                    calculate_c_baseline c_P (AC_u0 :: free) Au_P deltaz) *
                  Al_P.headD 0)
                free.length) i - free.getD i 0),
        calculate_c_baseline c_P (AC_u0 :: free) Au_P deltaz,
        psi_spars.map (fun ψ =>
          calculate_spar_distance ψ (AC_u0 :: free) Au_P Al_P deltaz c_P)⟩ := by
  rw [calculate_dependent_shape_coefficients] at h
  rcases hml : fixed_point_loop (calculate_AC_u0 free Au_P deltaz c_P)
      (Au_P.headD 0) 1e-9 with _ | AC_u0
  · rw [hml] at h
    exact Option.noConfusion h
  · rw [hml] at h
    replace h : (if psi_spars.length = free.length then
        backwards_branch free psi_spars Au_P Al_P deltaz c_P AC_u0
      else none) = some r := h
    by_cases hlen : psi_spars.length = free.length
    · rw [if_pos hlen] at h
      rw [backwards_branch] at h
      by_cases hdet : (backwards_matrix psi_spars free.length).det = 0
      · rw [if_pos hdet] at h
        cases h
      · rw [if_neg hdet] at h
        exact ⟨AC_u0, rfl, hlen, hdet, (Option.some.inj h).symm⟩
    · rw [if_neg hlen] at h
      cases h

/-- Inversion of a successful forwards solve, lines 99-156. -/
lemma dependent_forwards_inv {free psi_spars Au_P Al_P : List ℝ}
    {deltaz c_P : ℝ} {r : MorphResult}
    (h : calculate_dependent_shape_coefficients free psi_spars Au_P Al_P
        deltaz c_P Morphing.forwards = some r) :
    ∃ AC_u0,
      fixed_point_loop (calculate_AC_u0 free Au_P deltaz c_P) (Au_P.headD 0)
          1e-9 = some AC_u0 ∧
      psi_spars.length = free.length ∧
      (forwards_matrix psi_spars Au_P Al_P (AC_u0 :: free) deltaz c_P
          (calculate_c_baseline c_P (AC_u0 :: free) Au_P deltaz)
          free.length).det ≠ 0 ∧
      r = ⟨AC_u0 :: free,
        (Real.sqrt (c_P / calculate_c_baseline c_P (AC_u0 :: free) Au_P deltaz) *
            Al_P.headD 0) ::
          List.ofFn (fun i : Fin free.length =>
            (forwards_matrix psi_spars Au_P Al_P (AC_u0 :: free) deltaz c_P
              (calculate_c_baseline c_P (AC_u0 :: free) Au_P deltaz)
              free.length)⁻¹.mulVec
              (forwards_rhs psi_spars Au_P Al_P (AC_u0 :: free) deltaz c_P
                (calculate_c_baseline c_P (AC_u0 :: free) Au_P deltaz)
                (Real.sqrt (c_P /
                    calculate_c_baseline c_P (AC_u0 :: free) Au_P deltaz) *
                  Al_P.headD 0)
                free.length) i),
        calculate_c_baseline c_P (AC_u0 :: free) Au_P deltaz,
        psi_spars.map (fun ψ => c_P * (cst_upper Au_P (deltaz / (2 * c_P)) ψ
          - cst_lower Al_P (deltaz / (2 * c_P)) ψ))⟩ := by
  rw [calculate_dependent_shape_coefficients] at h
  rcases hml : fixed_point_loop (calculate_AC_u0 free Au_P deltaz c_P)
      (Au_P.headD 0) 1e-9 with _ | AC_u0
  · rw [hml] at h
    exact Option.noConfusion h
  · rw [hml] at h
    replace h : (if psi_spars.length = free.length then
        forwards_branch free psi_spars Au_P Al_P deltaz c_P AC_u0
      else none) = some r := h
    by_cases hlen : psi_spars.length = free.length
    · rw [if_pos hlen] at h
      rw [forwards_branch] at h
      by_cases hdet : (forwards_matrix psi_spars Au_P Al_P (AC_u0 :: free)
          deltaz c_P (calculate_c_baseline c_P (AC_u0 :: free) Au_P deltaz)
          free.length).det = 0
      · rw [if_pos hdet] at h
        cases h
      · rw [if_neg hdet] at h
        exact ⟨AC_u0, rfl, hlen, hdet, (Option.some.inj h).symm⟩
    · rw [if_neg hlen] at h
      cases h

/-- C1: in backwards mode, with the child free upper coefficients set equal
to the parent's own upper coefficients 1..n, the solver reproduces the
parent exactly: the child chord equals the parent chord, the child lower
coefficients equal the parent lower coefficients, and the spar thicknesses
equal the directly measured parent thicknesses (exact equality, hence
within the 1e-6 tolerance). -/
theorem C1_round_trip_identity (psi_spars Au_P Al_P : List ℝ)
    (deltaz c_P : ℝ) (r : MorphResult)
    (hAu : Au_P.length = psi_spars.length + 1)
    (hAl : Al_P.length = psi_spars.length + 1)
    (ha0 : Au_P.headD 0 ≠ 0) (hc : 0 < c_P)
    (hint : ∀ ψ ∈ psi_spars, 0 < ψ ∧ ψ < 1)
    (h : calculate_dependent_shape_coefficients Au_P.tail psi_spars Au_P Al_P
        deltaz c_P Morphing.backwards = some r) :
    r.c_C = c_P ∧ r.Al_C = Al_P ∧
      r.spar_thicknesses = psi_spars.map (fun ψ =>
        c_P * (cst_upper Au_P (deltaz / (2 * c_P)) ψ
          - cst_lower Al_P (deltaz / (2 * c_P)) ψ)) := by
  have hne : Au_P ≠ [] := by
    intro he
    rw [he] at hAu
    simp at hAu
  have hAlne : Al_P ≠ [] := by
    intro he
    rw [he] at hAl
    simp at hAl
  have hlen : psi_spars.length = Au_P.tail.length := by
    rw [List.length_tail]
    omega
  have hcne : c_P ≠ 0 := ne_of_gt hc
  rw [dependent_eq_backwards ha0 hcne hlen, backwards_branch,
    cons_headD_tail hne 0] at h
  have hcb : calculate_c_baseline c_P Au_P Au_P deltaz = c_P := by
    rw [calculate_c_baseline, div_self ha0, one_pow, mul_one]
  rw [hcb] at h
  have hl0 : Real.sqrt (c_P / c_P) * Al_P.headD 0 = Al_P.headD 0 := by
    rw [div_self hcne, Real.sqrt_one, one_mul]
  rw [hl0] at h
  have hfun : (fun ψ => calculate_spar_distance ψ Au_P Au_P Al_P deltaz c_P) =
      fun ψ => c_P * (cst_upper Au_P (deltaz / (2 * c_P)) ψ
        - cst_lower Al_P (deltaz / (2 * c_P)) ψ) :=
    funext fun ψ => spar_distance_self ψ Au_P Al_P deltaz c_P
  rw [hfun] at h
  have hAu2 : Au_P.length = Au_P.tail.length + 1 := by
    rw [List.length_tail]
    omega
  have hAl2 : Al_P.length = Au_P.tail.length + 1 := by
    rw [List.length_tail]
    omega
  by_cases hdet : (backwards_matrix psi_spars Au_P.tail.length).det = 0
  · rw [if_pos hdet] at h
    cases h
  · rw [if_neg hdet] at h
    have hb := backwards_rhs_identity psi_spars Au_P Al_P hcne deltaz hlen
      hAu2 hAl2 hint
    have hsolve := inv_mulVec_eq _ _ _ hdet hb.symm
    rw [hsolve] at h
    injection h with h2
    subst h2
    refine ⟨rfl, ?_, rfl⟩
    show Al_P.headD 0 :: List.ofFn (fun i : Fin Au_P.tail.length =>
        (Au_P.getD (i.1 + 1) 0 + Al_P.getD (i.1 + 1) 0) - Au_P.tail.getD i 0)
      = Al_P
    have hofn : List.ofFn (fun i : Fin Au_P.tail.length =>
        (Au_P.getD (i.1 + 1) 0 + Al_P.getD (i.1 + 1) 0) - Au_P.tail.getD i 0) =
        Al_P.tail := by
      apply List.ext_getElem
      · simp only [List.length_ofFn, List.length_tail]
        omega
      · intro k h1 h2
        simp only [List.getElem_ofFn]
        rw [getD_tail]
        have hk : k + 1 < Al_P.length := by
          rw [List.length_tail] at h2
          omega
        rw [List.getElem_tail, ← List.getD_eq_getElem Al_P 0 hk]
        ring
    rw [hofn, cons_headD_tail hAlne 0]

/-- C1 witness: the concrete identity round trip with parent [1,1]/[1,1],
chord 1, no trailing gap and one spar at 1/2. -/
theorem C1_round_trip_identity_witness :
    (∀ ψ ∈ ([1 / 2] : List ℝ), 0 < ψ ∧ ψ < 1) ∧
    calculate_dependent_shape_coefficients ([1, 1] : List ℝ).tail [1 / 2]
        [1, 1] [1, 1] 0 1 Morphing.backwards =
      some ⟨[1, 1], [1, 1], 1, [Real.sqrt (1 / 2)]⟩ ∧
    ((⟨[1, 1], [1, 1], 1, [Real.sqrt (1 / 2)]⟩ : MorphResult).c_C = 1 ∧
      (⟨[1, 1], [1, 1], 1, [Real.sqrt (1 / 2)]⟩ : MorphResult).Al_C = [1, 1] ∧
      (⟨[1, 1], [1, 1], 1, [Real.sqrt (1 / 2)]⟩ : MorphResult).spar_thicknesses =
        ([1 / 2] : List ℝ).map (fun ψ => 1 * (cst_upper [1, 1] (0 / (2 * 1)) ψ
          - cst_lower [1, 1] (0 / (2 * 1)) ψ))) :=
  ⟨by norm_num, backwards_eval_demo,
    C1_round_trip_identity [1 / 2] [1, 1] [1, 1] 0 1 _ (by norm_num) (by norm_num)
      (by norm_num) (by norm_num) (by norm_num) backwards_eval_demo⟩

/-- C2: in backwards mode the n x n system matrix has entries
C(n, i+1) * psi_j^(i+1) * (1-psi_j)^(n-(i+1)), the square linear system is
solved exactly (re-multiplying the matrix by the computed solution returns
the right-hand side), and the child lower coefficients are formed as the
pairwise differences solution component minus child free upper coefficient
with AC_l0 prepended as element 0. -/
theorem C2_backwards_linear_system (Au_C_1_to_n psi_spars Au_P Al_P : List ℝ)
    (deltaz c_P : ℝ) (r : MorphResult)
    (h : calculate_dependent_shape_coefficients Au_C_1_to_n psi_spars Au_P Al_P
        deltaz c_P Morphing.backwards = some r) :
    (∀ j i : Fin Au_C_1_to_n.length,
        backwards_matrix psi_spars Au_C_1_to_n.length j i =
          (Nat.choose Au_C_1_to_n.length (i.1 + 1) : ℝ) *
            (psi_spars.getD j 0) ^ (i.1 + 1) *
            (1 - psi_spars.getD j 0) ^ (Au_C_1_to_n.length - (i.1 + 1))) ∧
    (backwards_matrix psi_spars Au_C_1_to_n.length).mulVec
        ((backwards_matrix psi_spars Au_C_1_to_n.length)⁻¹.mulVec
          (backwards_rhs psi_spars r.spar_thicknesses deltaz r.c_C
            (r.Au_C.headD 0 + Real.sqrt (c_P / r.c_C) * Al_P.headD 0)
            Au_C_1_to_n.length)) =
      backwards_rhs psi_spars r.spar_thicknesses deltaz r.c_C
        (r.Au_C.headD 0 + Real.sqrt (c_P / r.c_C) * Al_P.headD 0)
        Au_C_1_to_n.length ∧
    r.Al_C = (Real.sqrt (c_P / r.c_C) * Al_P.headD 0) ::
      List.ofFn (fun i : Fin Au_C_1_to_n.length =>
        (backwards_matrix psi_spars Au_C_1_to_n.length)⁻¹.mulVec
          (backwards_rhs psi_spars r.spar_thicknesses deltaz r.c_C
            (r.Au_C.headD 0 + Real.sqrt (c_P / r.c_C) * Al_P.headD 0)
            Au_C_1_to_n.length) i - Au_C_1_to_n.getD i 0) := by
  obtain ⟨AC_u0, hml, hlen, hdet, hr⟩ := dependent_backwards_inv h
  subst hr
  refine ⟨?_, ?_, ?_⟩
  · intro j i
    rw [backwards_matrix, Matrix.of_apply, K_eq_choose i.isLt]
  · simp only [List.headD_cons]
    exact mulVec_inv_mulVec _ _ hdet
  · simp only [List.headD_cons]

/-- C2 witness: the linear-system facts at the concrete backwards run. -/
theorem C2_backwards_linear_system_witness :
    calculate_dependent_shape_coefficients [1] [1 / 2] [1, 1] [1, 1] 0 1
        Morphing.backwards = some ⟨[1, 1], [1, 1], 1, [Real.sqrt (1 / 2)]⟩ ∧
    (∀ j i : Fin ([1] : List ℝ).length,
        backwards_matrix [1 / 2] ([1] : List ℝ).length j i =
          (Nat.choose ([1] : List ℝ).length (i.1 + 1) : ℝ) *
            (([1 / 2] : List ℝ).getD j 0) ^ (i.1 + 1) *
            (1 - ([1 / 2] : List ℝ).getD j 0) ^ (([1] : List ℝ).length - (i.1 + 1))) :=
  ⟨backwards_eval_demo,
    (C2_backwards_linear_system [1] [1 / 2] [1, 1] [1, 1] 0 1 _
      backwards_eval_demo).1⟩

/-- C4 counterexample: at a concrete forwards input the returned spar
thickness is the purely vertical parent-frame gap 3/4, which is not the
distance measured along the direction orthogonal to the local parent
tangent (the parent slope at the spar is 1/4, so the orthogonal distance is
(3/4)/sqrt(17/16) instead). -/
theorem C4_counterexample :
    calculate_dependent_shape_coefficients [1] [1 / 4] [1, 1] [1, 1] 0 1
        Morphing.forwards = some ⟨[1, 1], [1, 1], 1, [3 / 4]⟩ ∧
    (3 / 4 : ℝ) ≠ orthogonal_spar_distance [1, 1] [1, 1] 0 1 (1 / 4) := by
  refine ⟨forwards_eval_demo, ?_⟩
  have hval : orthogonal_spar_distance [1, 1] [1, 1] 0 1 (1 / 4) =
      (3 / 4) / Real.sqrt (17 / 16) := by
    rw [orthogonal_spar_distance, show (0 : ℝ) / (2 * 1) = 0 by norm_num,
      deriv_cst_upper_one_one_quarter, cst_upper_one_one, cst_lower_one_one]
    norm_num [sqrt_quarter, sqrt_four]
  rw [hval]
  intro heq
  have hne : Real.sqrt (17 / 16) ≠ 0 :=
    ne_of_gt (Real.sqrt_pos.mpr (by norm_num))
  have h1 : Real.sqrt (17 / 16) = 1 := by
    have h2 : (3 / 4 : ℝ) * Real.sqrt (17 / 16) = 3 / 4 := by
      calc (3 / 4 : ℝ) * Real.sqrt (17 / 16)
          = (3 / 4 / Real.sqrt (17 / 16)) * Real.sqrt (17 / 16) := by rw [← heq]
        _ = 3 / 4 := div_mul_cancel₀ _ hne
    linarith
  exact sqrt_seventeen_sixteenths_ne_one h1

/-- C4 amended: the spar thicknesses depend on the mode — in backwards mode
they are the spar-distance primitive values (measured in the parent along
the morph-rotated spar direction), in forwards mode they are the purely
vertical parent-frame gaps c_P * (xi_u - xi_l)(psi_j). -/
theorem C4_thickness_by_mode (Au_C_1_to_n psi_spars Au_P Al_P : List ℝ)
    (deltaz c_P : ℝ) (m : Morphing) (r : MorphResult)
    (h : calculate_dependent_shape_coefficients Au_C_1_to_n psi_spars Au_P Al_P
        deltaz c_P m = some r) :
    (m = Morphing.backwards → r.spar_thicknesses = psi_spars.map (fun ψ =>
        calculate_spar_distance ψ r.Au_C Au_P Al_P deltaz c_P)) ∧
    (m = Morphing.forwards → r.spar_thicknesses = psi_spars.map (fun ψ =>
        c_P * (cst_upper Au_P (deltaz / (2 * c_P)) ψ
          - cst_lower Al_P (deltaz / (2 * c_P)) ψ))) := by
  cases m
  · obtain ⟨AC_u0, _, _, _, hr⟩ := dependent_backwards_inv h
    subst hr
    exact ⟨fun _ => rfl, fun hc => Morphing.noConfusion hc⟩
  · obtain ⟨AC_u0, _, _, _, hr⟩ := dependent_forwards_inv h
    subst hr
    exact ⟨fun hc => Morphing.noConfusion hc, fun _ => rfl⟩

/-- C4 witness: the forwards clause of the amended statement at the
concrete forwards run. -/
theorem C4_thickness_by_mode_witness :
    calculate_dependent_shape_coefficients [1] [1 / 4] [1, 1] [1, 1] 0 1
        Morphing.forwards = some ⟨[1, 1], [1, 1], 1, [3 / 4]⟩ ∧
    (Morphing.forwards = Morphing.forwards →
      (⟨[1, 1], [1, 1], 1, [3 / 4]⟩ : MorphResult).spar_thicknesses =
        ([1 / 4] : List ℝ).map (fun ψ => 1 * (cst_upper [1, 1] (0 / (2 * 1)) ψ
          - cst_lower [1, 1] (0 / (2 * 1)) ψ))) :=
  ⟨forwards_eval_demo,
    (C4_thickness_by_mode [1] [1 / 4] [1, 1] [1, 1] 0 1 Morphing.forwards _
      forwards_eval_demo).2⟩

/-- C8: for a valid input with n free upper coefficients and n spar
stations, a successful solve returns a child upper list of length n+1, a
child lower list of length n+1 and a spar-thickness list of length n, in
both morphing modes. -/
theorem C8_output_lengths (Au_C_1_to_n psi_spars Au_P Al_P : List ℝ)
    (deltaz c_P : ℝ) (m : Morphing) (r : MorphResult)
    (hlen : psi_spars.length = Au_C_1_to_n.length)
    (h : calculate_dependent_shape_coefficients Au_C_1_to_n psi_spars Au_P Al_P
        deltaz c_P m = some r) :
    r.Au_C.length = Au_C_1_to_n.length + 1 ∧
    r.Al_C.length = Au_C_1_to_n.length + 1 ∧
    r.spar_thicknesses.length = Au_C_1_to_n.length := by
  cases m
  · obtain ⟨AC_u0, _, _, _, hr⟩ := dependent_backwards_inv h
    subst hr
    exact ⟨by simp, by simp, by simp [hlen]⟩
  · obtain ⟨AC_u0, _, _, _, hr⟩ := dependent_forwards_inv h
    subst hr
    exact ⟨by simp, by simp, by simp [hlen]⟩

/-- C8 witness: the order invariants at the concrete backwards run. -/
theorem C8_output_lengths_witness :
    ([1 / 2] : List ℝ).length = ([1] : List ℝ).length ∧
    ((⟨[1, 1], [1, 1], 1, [Real.sqrt (1 / 2)]⟩ : MorphResult).Au_C.length =
        ([1] : List ℝ).length + 1 ∧
      (⟨[1, 1], [1, 1], 1, [Real.sqrt (1 / 2)]⟩ : MorphResult).Al_C.length =
        ([1] : List ℝ).length + 1 ∧
      (⟨[1, 1], [1, 1], 1, [Real.sqrt (1 / 2)]⟩ : MorphResult).spar_thicknesses.length =
        ([1] : List ℝ).length) :=
  ⟨rfl, C8_output_lengths [1] [1 / 2] [1, 1] [1, 1] 0 1 Morphing.backwards _
    rfl backwards_eval_demo⟩

/-- C3: the while loop of lines 51-56 has no iteration cap and no failure
report: its denotation fails (the source loops forever, reporting nothing
to the caller) exactly when no iterate ever comes within the tolerance of
its predecessor; there is no bounded iteration count after which a
NonConvergence failure would be raised. -/
theorem C3_loop_unbounded (f : ℝ → ℝ) (x0 tol : ℝ) :
    fixed_point_loop f x0 tol = none ↔
      ∀ k : ℕ, tol < |f^[k + 1] x0 - f^[k] x0| := by
  rw [fixed_point_loop]
  by_cases h : ∃ k, |f^[k + 1] x0 - f^[k] x0| ≤ tol
  · rw [dif_pos h]
    constructor
    · intro hc
      exact Option.noConfusion hc
    · intro hall
      obtain ⟨k, hk⟩ := h
      exact absurd hk (not_le.mpr (hall k))
  · rw [dif_neg h]
    push_neg at h
    exact iff_of_true rfl h

/-- The modelled lower arc length of a flat surface with chord 2 is twice
the width of the bounds. -/
lemma arc_length_flat (a b : ℝ) :
    calculate_arc_length a b [0, 0] 0 2 = 2 * (b - a) := by
  rw [calculate_arc_length, show (0 : ℝ) / (2 * 2) = 0 by norm_num,
    cst_lower_zero_zero]
  simp only [deriv_const', ne_eq, OfNat.ofNat_ne_zero, not_false_eq_true,
    zero_pow, add_zero, Real.sqrt_one]
  rw [intervalIntegral.integral_const, smul_eq_mul, mul_one]

/-- C5: the strain evaluator applied to identical parent and child
configurations with chord 2 (upper [1,1], lower [0,0], no trailing gap,
one spar at 1/2, thickness 1) returns the per-segment strains [1, -1/3],
not zeros: line 206 appends the dimensional chord c_P to the normalized
station list while lines 212-214 use dimensional landing points, so for a
chord different from 1 the initial and final segment bounds disagree even
when nothing morphs. -/
theorem C5_identity_nonzero_strain :
    (calculate_strains [1, 1] [0, 0] 2 [1, 1] [0, 0] 2 0 [1 / 2] [1]).1 =
      [1, -(1 / 3)] ∧
    (calculate_strains [1, 1] [0, 0] 2 [1, 1] [0, 0] 2 0 [1 / 2] [1]).1.getD 0 0 ≠ 0 := by
  have hmain : (calculate_strains [1, 1] [0, 0] 2 [1, 1] [0, 0] 2 0 [1 / 2] [1]).1 =
      [1, -(1 / 3)] := by
    simp only [calculate_strains, calculate_psi_goal, spar_direction_self,
      List.length_cons, List.length_nil, List.range_succ, List.range_zero,
      List.map_nil, List.map_append, List.map_cons, List.nil_append,
      List.cons_append, List.getD_cons_zero, List.getD_cons_succ]
    norm_num [arc_length_flat]
  refine ⟨hmain, ?_⟩
  rw [hmain]
  norm_num

/-- C6: with the near-duplicate spar stations 1/2 and 1/2 + 1e-9 the
Bernstein matrix is ill-conditioned but, in exact arithmetic, invertible;
the backwards solver silently returns a result instead of reporting a
SingularSystem failure. -/
theorem C6_near_singular_no_failure :
    calculate_dependent_shape_coefficients [1, 1]
        [1 / 2, 1 / 2 + 1 / 1000000000] [1, 1] [1, 1] 0 1
        Morphing.backwards ≠ none := by
  rw [dependent_eq_backwards (by norm_num) (by norm_num) (by simp),
    backwards_branch]
  have hdet : (backwards_matrix [1 / 2, 1 / 2 + 1 / 1000000000]
      ([1, 1] : List ℝ).length).det ≠ 0 := by
    rw [show ([1, 1] : List ℝ).length = 2 from rfl, Matrix.det_fin_two]
    simp only [backwards_matrix, Matrix.of_apply, Fin.val_zero, Fin.val_one,
      List.getD_cons_zero, List.getD_cons_succ]
    norm_num [K, Nat.factorial]
  rw [if_neg hdet]
  exact Option.some_ne_none _

/-- C7: a spar-station count different from the number of free upper
coefficients is never validated; the solve runs and then dies (IndexError
at line 82 or 91, none here), so no result is ever produced for a
mismatched input. -/
theorem C7_mismatch_aborts (Au_C_1_to_n psi_spars Au_P Al_P : List ℝ)
    (deltaz c_P : ℝ) (m : Morphing)
    (hlen : psi_spars.length ≠ Au_C_1_to_n.length) :
    calculate_dependent_shape_coefficients Au_C_1_to_n psi_spars Au_P Al_P
      deltaz c_P m = none := by
  rw [calculate_dependent_shape_coefficients]
  rcases hml : fixed_point_loop (calculate_AC_u0 Au_C_1_to_n Au_P deltaz c_P)
      (Au_P.headD 0) 1e-9 with _ | AC_u0
  · rfl
  · simp [hlen]

/-- C7 witness: two spar stations against one free coefficient abort. -/
theorem C7_mismatch_aborts_witness :
    ([1 / 5, 1 / 2] : List ℝ).length ≠ ([1 / 4] : List ℝ).length ∧
    calculate_dependent_shape_coefficients [1 / 4] [1 / 5, 1 / 2] [1, 1] [1, 1]
      0 1 Morphing.backwards = none :=
  ⟨by simp, C7_mismatch_aborts [1 / 4] [1 / 5, 1 / 2] [1, 1] [1, 1] 0 1
    Morphing.backwards (by simp)⟩

/-- C9: the tracing fit builds the square Bernstein matrix with entries
C(n, i+1) * (x_j/chord)^(i+1) * (1-x_j/chord)^(n-(i+1)), the right-hand
side (y_j/chord - (x_j/chord)*end_thickness/chord) /
((x_j/chord)^N1 * (1-x_j/chord)^N2) - A0*(1-x_j/chord)^n, solves the
system (re-multiplying the matrix by the computed solution returns the
right-hand side) and returns the n+1 coefficients with A0 prepended. -/
theorem C9_tracing_solver (A0 : ℝ) (x y : List ℝ)
    (N1 N2 chord EndThickness : ℝ) (A : List ℝ)
    (h : calculate_shape_coefficients_tracing A0 x y N1 N2 chord EndThickness =
      some A) :
    A.length = x.length + 1 ∧
    A.headD 0 = A0 ∧
    (∀ j i : Fin x.length,
        tracing_matrix x chord x.length j i =
          (Nat.choose x.length (i.1 + 1) : ℝ) * (x.getD j 0 / chord) ^ (i.1 + 1) *
            (1 - x.getD j 0 / chord) ^ (x.length - (i.1 + 1))) ∧
    (∀ j : Fin x.length,
        tracing_rhs x y N1 N2 chord EndThickness A0 x.length j =
          (y.getD j 0 / chord - x.getD j 0 / chord * (EndThickness / chord)) /
              ((x.getD j 0 / chord) ^ N1 * (1 - x.getD j 0 / chord) ^ N2) -
            A0 * (1 - x.getD j 0 / chord) ^ x.length) ∧
    (tracing_matrix x chord x.length).mulVec
        ((tracing_matrix x chord x.length)⁻¹.mulVec
          (tracing_rhs x y N1 N2 chord EndThickness A0 x.length)) =
      tracing_rhs x y N1 N2 chord EndThickness A0 x.length ∧
    A = A0 :: List.ofFn (fun i : Fin x.length =>
        (tracing_matrix x chord x.length)⁻¹.mulVec
          (tracing_rhs x y N1 N2 chord EndThickness A0 x.length) i) := by
  rw [calculate_shape_coefficients_tracing] at h
  by_cases hxy : y.length < x.length
  · rw [if_pos hxy] at h
    cases h
  · rw [if_neg hxy] at h
    by_cases hdet : (tracing_matrix x chord x.length).det = 0
    · rw [if_pos hdet] at h
      cases h
    · rw [if_neg hdet] at h
      obtain rfl := (Option.some.inj h).symm
      refine ⟨by simp, rfl, ?_, fun j => rfl, ?_, rfl⟩
      · intro j i
        rw [tracing_matrix, Matrix.of_apply, K_eq_choose i.isLt]
      · exact mulVec_inv_mulVec _ _ hdet

/-- Concrete tracing run: A0 = 0, one target point (1/2, 1/2), both class
exponents 1, chord 1, no end thickness. -/
lemma tracing_eval_demo :
    calculate_shape_coefficients_tracing 0 [1 / 2] [1 / 2] 1 1 1 0 =
      some [0, 4] := by
  rw [calculate_shape_coefficients_tracing, if_neg (by simp)]
  have hdet : (tracing_matrix [1 / 2] 1 ([1 / 2] : List ℝ).length).det = 1 / 2 := by
    rw [show ([1 / 2] : List ℝ).length = 1 from rfl, Matrix.det_fin_one]
    norm_num [tracing_matrix, K, Nat.factorial]
  have ht : tracing_rhs [1 / 2] [1 / 2] 1 1 1 0 0 ([1 / 2] : List ℝ).length =
      fun _ => (2 : ℝ) := by
    funext j
    simp only [tracing_rhs]
    norm_num [Real.rpow_natCast, Real.rpow_one]
  have hsolve : (tracing_matrix [1 / 2] 1 ([1 / 2] : List ℝ).length)⁻¹.mulVec
      (fun _ => (2 : ℝ)) = fun _ => (4 : ℝ) := by
    apply inv_mulVec_eq _ _ _ (by rw [hdet]; norm_num)
    funext j
    simp [Matrix.mulVec, Matrix.dotProduct, tracing_matrix, Fin.sum_univ_one]
    norm_num [K, Nat.factorial]
  rw [ht, if_neg (by rw [hdet]; norm_num), hsolve]
  norm_num [List.ofFn_succ, List.ofFn_zero]

/-- C9 witness: the tracing solver at the concrete run returns exactly two
coefficients with the fixed leading coefficient first. -/
theorem C9_tracing_solver_witness :
    calculate_shape_coefficients_tracing 0 [1 / 2] [1 / 2] 1 1 1 0 =
      some [0, 4] ∧
    ([0, 4] : List ℝ).length = ([1 / 2] : List ℝ).length + 1 ∧
    ([0, 4] : List ℝ).headD 0 = 0 :=
  ⟨tracing_eval_demo,
    (C9_tracing_solver 0 [1 / 2] [1 / 2] 1 1 1 0 [0, 4] tracing_eval_demo).1,
    (C9_tracing_solver 0 [1 / 2] [1 / 2] 1 1 1 0 [0, 4] tracing_eval_demo).2.1⟩

/-- C10: for interior spar stations the divisor psi^0.5 * (1-psi) of every
right-hand-side row is nonzero, so the division in the assembly of lines
74-82 is by a nonzero number (the row times the divisor recovers the
undivided numerator); the matrix assembly of lines 84-91 contains no other
division than the nonzero factorial quotient in K. -/
theorem C10_no_division_by_zero (psi_spars thicknesses : List ℝ)
    (deltaz c_C A0 : ℝ) (n : ℕ)
    (hint : ∀ ψ ∈ psi_spars, 0 < ψ ∧ ψ < 1) (j : Fin n)
    (hj : (j : ℕ) < psi_spars.length) :
    Real.sqrt (psi_spars.getD j 0) * (1 - psi_spars.getD j 0) ≠ 0 ∧
    (backwards_rhs psi_spars thicknesses deltaz c_C A0 n j +
        A0 * (1 - psi_spars.getD j 0) ^ n) *
      (Real.sqrt (psi_spars.getD j 0) * (1 - psi_spars.getD j 0)) =
      thicknesses.getD j 0 / c_C - psi_spars.getD j 0 * deltaz / c_C := by
  have hmem : psi_spars.getD j 0 ∈ psi_spars := by
    rw [List.getD_eq_getElem _ _ hj]
    exact List.getElem_mem _
  obtain ⟨h0, h1⟩ := hint _ hmem
  have hS : Real.sqrt (psi_spars.getD j 0) * (1 - psi_spars.getD j 0) ≠ 0 :=
    mul_ne_zero (ne_of_gt (Real.sqrt_pos.mpr h0)) (by linarith)
  refine ⟨hS, ?_⟩
  simp only [backwards_rhs]
  rw [sub_add_cancel]
  exact div_mul_cancel₀ _ hS

/-- C10 witness: the nonzero-divisor facts at the spar station 1/2. -/
theorem C10_no_division_by_zero_witness :
    (∀ ψ ∈ ([1 / 2] : List ℝ), 0 < ψ ∧ ψ < 1) ∧
    (Real.sqrt (([1 / 2] : List ℝ).getD 0 0) *
        (1 - ([1 / 2] : List ℝ).getD 0 0) ≠ 0 ∧
      (backwards_rhs [1 / 2] [1] 0 1 2 1 0 +
          2 * (1 - ([1 / 2] : List ℝ).getD 0 0) ^ 1) *
        (Real.sqrt (([1 / 2] : List ℝ).getD 0 0) *
          (1 - ([1 / 2] : List ℝ).getD 0 0)) =
        ([1] : List ℝ).getD 0 0 / 1 - ([1 / 2] : List ℝ).getD 0 0 * 0 / 1) :=
  ⟨by norm_num,
    C10_no_division_by_zero [1 / 2] [1] 0 1 2 1 (by norm_num) 0 (by simp)⟩

end Camber2D
